import Mathlib

/-!
Verification of the URL-shortener core (src/app.py, src/utils.py,
src/database.py) against its natural-language specification.

The embedding models:
  * the URL-validation regex of utils.is_valid_url (compiled with
    re.IGNORECASE and matched with re.match, whose final dollar anchor
    also matches just before one trailing newline);
  * the custom-shortcode format regex of app.create_short_url;
  * the persistent store (tables urls and clicks) as lists, with the
    SQLite AUTOINCREMENT id modelled by a nextUrlId counter;
  * the three request handlers create_short_url, get_short_url_stats and
    redirect_short_url as state-passing functions.  Each call of
    datetime.utcnow() in the source is a separate integer parameter
    (seconds), in source order.
-/

set_option maxHeartbeats 1000000

/-! ### Character classes

The source regexes are compiled with re.IGNORECASE; this is modelled by
lowercasing the input once and using lowercase classes (ASCII case, as in
Char.toLower). -/

/-- Class [a-z] after lowercasing, i.e. [A-Za-z] of the source regex. -/
def isAzL (c : Char) : Bool := c.isLower

/-- Class [a-z0-9] after lowercasing, i.e. [A-Z0-9] of the source regex. -/
def isAlnumL (c : Char) : Bool := c.isLower || c.isDigit

/-- Class [a-z0-9-] after lowercasing, i.e. [A-Z0-9-] of the source regex. -/
def isAlnumHyphL (c : Char) : Bool := isAlnumL c || c == '-'

/-- The ASCII part of the Python regex class backslash-s. -/
def isSpaceC (c : Char) : Bool :=
  c == ' ' || c == '\t' || c == '\n' || c == '\r' || c == '\x0b' || c == '\x0c'

/-! ### Splitting a character list at the dots

The host part of the URL regex is layered with literal dots whose
surrounding pieces (domain labels, TLD, IPv4 octets) never contain a dot,
so matching it is equivalent to conditions on the dot-separated pieces. -/

/-- Split a character list at every dot (the pieces do not contain dots,
and joining them back with dots restores the list). -/
def splitDots : List Char → List (List Char)
  | [] => [[]]
  | c :: rest =>
    let r := splitDots rest
    if c = '.' then [] :: r
    else
      match r with
      | [] => [[c]]
      | p :: ps => (c :: p) :: ps

/-- Joining a list of pieces with dots: inverse of splitDots. -/
def reconstruct : List (List Char) → List Char
  | [] => []
  | [p] => p
  | p :: q :: ps => p ++ '.' :: reconstruct (q :: ps)

/-- A list of labels, each followed by a dot, concatenated. -/
def joinLabels (ls : List (List Char)) : List Char :=
  (ls.map (fun l => l ++ ['.'])).flatten

/-! ### The URL-validation regex of utils.is_valid_url

Source pattern, compiled with re.IGNORECASE and used with re.match:
  caret (?:http|ftp)s?://
  (?:(?:[A-Z0-9](?:[A-Z0-9-]up-to-61[A-Z0-9])?dot)+(?:[A-Z]two-to-six dot? | [A-Z0-9-]two-or-more dot?)
   | localhost
   | digits1-3 dot digits1-3 dot digits1-3 dot digits1-3)
  (?::digits+)?
  (?:/?|[/?]nonspace+) dollar
Matching is modelled on the lowercased character list; each regex piece
becomes a Boolean predicate, and alternation, option and concatenation
become disjunction and a bounded search over split points, which is the
defining semantics of a regex match. -/

/-- One domain label: [A-Z0-9](?:[A-Z0-9-]at-most-61[A-Z0-9])? -/
def labelOk : List Char → Bool
  | [] => false
  | c :: rest =>
    isAlnumL c &&
      (rest.isEmpty ||
        (decide (rest.dropLast.length ≤ 61) && rest.dropLast.all isAlnumHyphL &&
          (match rest.getLast? with
           | some d => isAlnumL d
           | none => false)))

/-- The TLD alternatives without their optional trailing dot:
[A-Z]two-to-six or [A-Z0-9-]two-or-more. -/
def tldCoreOk (t : List Char) : Bool :=
  (decide (2 ≤ t.length) && decide (t.length ≤ 6) && t.all isAzL) ||
    (decide (2 ≤ t.length) && t.all isAlnumHyphL)

/-- One IPv4 octet of the regex: one to three digit characters. -/
def octOk (o : List Char) : Bool :=
  decide (1 ≤ o.length) && decide (o.length ≤ 3) && o.all Char.isDigit

/-- Domain alternative of the host: (label dot)+ then a TLD with an
optional trailing dot.  Labels, the TLD core and the dots layer exactly as
the dot-separated pieces of the list. -/
def domainOk (h : List Char) : Bool :=
  let ps := splitDots h
  let qs := if ps.getLast? = some [] then ps.dropLast else ps
  decide (2 ≤ qs.length) && qs.dropLast.all labelOk &&
    (match qs.getLast? with
     | some t => tldCoreOk t
     | none => false)

/-- Dotted-quad alternative of the host. -/
def ipv4Ok (h : List Char) : Bool :=
  (splitDots h).length == 4 && (splitDots h).all octOk

/-- The literal localhost alternative. -/
def localhostChars : List Char := ['l', 'o', 'c', 'a', 'l', 'h', 'o', 's', 't']

/-- Host part of the regex: domain, localhost or dotted quad. -/
def hostOk (h : List Char) : Bool :=
  domainOk h || h == localhostChars || ipv4Ok h

/-- Optional port: (?::digits+)? -/
def portOk : List Char → Bool
  | [] => true
  | c :: ds => c == ':' && !ds.isEmpty && ds.all Char.isDigit

/-- Optional path or query: (?:/?|[/?]nonspace+) -/
def pathOk : List Char → Bool
  | [] => true
  | [c] => c == '/'
  | c :: rest => (c == '/' || c == '?') && rest.all (fun d => !isSpaceC d)

/-- Everything after scheme://: host, optional port, optional path, ending
at the anchor; concatenation is a search over the two split points. -/
def restOk (r : List Char) : Bool :=
  (List.range (r.length + 1)).any fun i =>
    hostOk (r.take i) &&
      (List.range ((r.drop i).length + 1)).any fun j =>
        portOk ((r.drop i).take j) && pathOk ((r.drop i).drop j)

/-- The four scheme alternatives (?:http|ftp)s? . -/
def schemeNames : List (List Char) :=
  [['h', 't', 't', 'p'], ['h', 't', 't', 'p', 's'],
   ['f', 't', 'p'], ['f', 't', 'p', 's']]

/-- Scheme alternatives with the literal ://. -/
def schemePrefixes : List (List Char) :=
  schemeNames.map (fun s => s ++ [':', '/', '/'])

/-- The regex body (everything but the trailing-newline behaviour of the
dollar anchor), on an already lowercased character list. -/
def coreOk (l : List Char) : Bool :=
  schemePrefixes.any fun p => p.isPrefixOf l && restOk (l.drop p.length)

/-- utils.is_valid_url: re.match of the IGNORECASE regex.  Lowercasing
models IGNORECASE; the second disjunct models the dollar anchor, which in
Python also matches just before one trailing newline. -/
def is_valid_url (s : String) : Bool :=
  let l := s.data.map Char.toLower
  coreOk l ||
    (match l.getLast? with
     | some c => c == '\n' && coreOk l.dropLast
     | none => false)

/-! ### The specification-side URL grammar

Section 4.1 of the spec describes validateUrl as an absolute-URL grammar:
scheme http/https/ftp/ftps, then ://, then a host that is a domain-label
sequence with a TLD pattern, or the literal localhost, or a dotted-quad
IPv4 literal, then an optional port, then an optional path or query,
case-insensitively.  The grammar is stated as explicit decompositions. -/

/-- Host alternative one of the spec grammar: a nonempty sequence of
dot-terminated labels followed by a TLD, which may itself end in a dot. -/
def LabelSeq (s : List Char) : Prop :=
  ∃ labels core dot, labels ≠ [] ∧ (∀ l ∈ labels, labelOk l = true) ∧
    tldCoreOk core = true ∧ (dot = [] ∨ dot = ['.']) ∧
    s = joinLabels labels ++ core ++ dot

/-- Host alternative three of the spec grammar: a dotted-quad literal. -/
def IPStr (s : List Char) : Prop :=
  ∃ o1 o2 o3 o4, octOk o1 = true ∧ octOk o2 = true ∧ octOk o3 = true ∧
    octOk o4 = true ∧ s = o1 ++ '.' :: (o2 ++ '.' :: (o3 ++ '.' :: o4))

/-- Host of the spec grammar. -/
def HostStr (s : List Char) : Prop := LabelSeq s ∨ s = localhostChars ∨ IPStr s

/-- Optional port of the spec grammar: empty, or a colon and digits. -/
def PortStr (p : List Char) : Prop :=
  p = [] ∨ ∃ ds, ds ≠ [] ∧ ds.all Char.isDigit = true ∧ p = ':' :: ds

/-- Optional path or query of the spec grammar: empty, a bare slash, or a
slash or question mark followed by nonempty non-whitespace text. -/
def PathStr (p : List Char) : Prop :=
  p = [] ∨ p = ['/'] ∨
    ∃ c rest, (c = '/' ∨ c = '?') ∧ rest ≠ [] ∧
      rest.all (fun d => !isSpaceC d) = true ∧ p = c :: rest

/-- Everything after the scheme separator in the spec grammar. -/
def RestStr (r : List Char) : Prop :=
  ∃ h p q, HostStr h ∧ PortStr p ∧ PathStr q ∧ r = h ++ p ++ q

/-- The full spec grammar on a lowercased character list. -/
def CoreUrl (l : List Char) : Prop :=
  ∃ sch host port path, sch ∈ schemeNames ∧ HostStr host ∧ PortStr port ∧
    PathStr path ∧ l = sch ++ [':', '/', '/'] ++ host ++ port ++ path

/-- The spec grammar of section 4.1, applied case-insensitively. -/
def UrlGrammar (s : String) : Prop := CoreUrl (s.data.map Char.toLower)

/-! ### The store and the request handlers of src/app.py

The urls and clicks tables of src/database.py become lists in insertion
(rowid) order; the AUTOINCREMENT primary key of urls becomes the
nextUrlId counter.  SELECT ... WHERE short_code = ? with fetchone is
List.find? in row order; SELECT ... WHERE url_id = ? with fetchall is
List.filter in row order. -/

/-- One row of the urls table. -/
structure UrlEntry where
  id : Nat
  original_url : String
  short_code : String
  created_at : Int
  expires_at : Int
deriving DecidableEq

/-- One row of the clicks table. -/
structure ClickRow where
  url_id : Nat
  timestamp : Int
  referrer : String
  ip_address : String
  country : String
  region : String
  city : String
deriving DecidableEq

/-- The persistent store. -/
structure DB where
  urls : List UrlEntry
  clicks : List ClickRow
  nextUrlId : Nat
deriving DecidableEq

/-- The store produced by database.init_db: both tables empty; SQLite row
ids start at one. -/
def initDB : DB := ⟨[], [], 1⟩

/-- utils.calculate_expiry: now plus the validity in minutes (times are in
seconds). -/
def calculate_expiry (now minutes : Int) : Int := now + 60 * minutes

/-- utils.get_geolocation: the mocked lookup; a falsy ip gives Unknown. -/
def get_geolocation (ip : String) : String × String × String :=
  if ip = "" then ("Unknown", "Unknown", "Unknown")
  else ("India", "Andhra Pradesh", "Kadapa")

/-- The custom-shortcode pattern of create_short_url without the
trailing-newline behaviour: 4 to 20 characters of [A-Za-z0-9_-]. -/
def codeCoreOk (l : List Char) : Bool :=
  decide (4 ≤ l.length) && decide (l.length ≤ 20) &&
    l.all (fun c => c.isAlpha || c.isDigit || c == '_' || c == '-')

/-- re.match of the custom-shortcode pattern: the dollar anchor again also
matches before one trailing newline. -/
def codeFormatOk (s : String) : Bool :=
  codeCoreOk s.data ||
    (match s.data.getLast? with
     | some c => c == '\n' && codeCoreOk s.data.dropLast
     | none => false)

/-- Existence check SELECT id FROM urls WHERE short_code = ? . -/
def codeTaken (db : DB) (c : String) : Bool :=
  db.urls.any (fun e => e.short_code == c)

/-- Outcome of POST /shorturls. -/
inductive CreateResult where
  | created (shortLink : String) (expiry : Int)
  | badRequest
  | conflict
  | serverError
deriving DecidableEq

/-- Step 5 of create_short_url: INSERT INTO urls and commit.  When the
INSERT raises, the handler answers 500 and nothing is committed (the
except clause in app.py names sqlite3, which app.py never imports, so the
handler itself raises NameError into the generic 500 handler; either way
the outcome is a 500 with the store unchanged). -/
def insertUrl (db : DB) (url code : String) (t2 expires_at : Int)
    (baseUrl : String) (insertFails : Bool) : DB × CreateResult :=
  if insertFails then (db, .serverError)
  else
    ({ urls := db.urls ++ [⟨db.nextUrlId, url, code, t2, expires_at⟩],
       clicks := db.clicks, nextUrlId := db.nextUrlId + 1 },
     .created (baseUrl ++ "/" ++ code) expires_at)

/-- Resolution of the validity field, step 2 of create_short_url:
validity_minutes if isinstance(validity_minutes, int) and
validity_minutes greater than zero, else 30. -/
def effectiveValidity : Option Int → Int
  | some v => if v > 0 then v else 30
  | none => 30

/-- app.create_short_url.  t1 is the utcnow() reading inside
calculate_expiry at step 2; t2 is the utcnow() reading taken at step 5
for created_at.  gen models successive shortuuid outputs; hgen states that
the generator eventually emits a code that is not in the store, which is
exactly the condition under which the while-True retry loop of step 4
terminates, and the loop then returns the first such code. -/
def create_short_url (db : DB) (url? : Option String) (validity? : Option Int)
    (shortcode? : Option String) (gen : Nat → String)
    (hgen : ∃ n, gen n ∉ db.urls.map UrlEntry.short_code)
    (t1 t2 : Int) (baseUrl : String) (insertFails : Bool) : DB × CreateResult :=
  match url? with
  | none => (db, .badRequest)
  | some url =>
    if url = "" || !is_valid_url url then (db, .badRequest)
    else
      let expires_at := calculate_expiry t1 (effectiveValidity validity?)
      match shortcode? with
      | some c =>
        if c ≠ "" then
          if !codeFormatOk c then (db, .badRequest)
          else if codeTaken db c then (db, .conflict)
          else insertUrl db url c t2 expires_at baseUrl insertFails
        else insertUrl db url (gen (Nat.find hgen)) t2 expires_at baseUrl insertFails
      | none => insertUrl db url (gen (Nat.find hgen)) t2 expires_at baseUrl insertFails

/-- One rendered element of clickDetails in get_short_url_stats. -/
structure ClickDetail where
  timestamp : Int
  referrer : String
  ipAddress : String
  country : String
  region : String
  city : String
deriving DecidableEq

/-- The 200 body of GET /shorturls/shortcode. -/
structure StatsView where
  originalUrl : String
  creationDate : Int
  expiryDate : Int
  totalClicks : Nat
  clickDetails : List ClickDetail
deriving DecidableEq

/-- Rendering of one clicks row into the response body. -/
def renderClick (c : ClickRow) : ClickDetail :=
  ⟨c.timestamp, c.referrer, c.ip_address, c.country, c.region, c.city⟩

/-- app.get_short_url_stats: lookup by short_code, then gather the clicks
of that entry id in row order; none models the 404.  The handler runs only
SELECT statements, so the store is returned unchanged. -/
def get_short_url_stats (db : DB) (code : String) : DB × Option StatsView :=
  match db.urls.find? (fun e => e.short_code == code) with
  | none => (db, none)
  | some e =>
    let cs := db.clicks.filter (fun c => c.url_id == e.id)
    (db, some ⟨e.original_url, e.created_at, e.expires_at, cs.length,
      cs.map renderClick⟩)

/-- Outcome of GET /shortcode. -/
inductive RedirectResult where
  | notFound
  | gone
  | redirected (url : String)
  | serverError
deriving DecidableEq

/-- The clicks row recorded by redirect_short_url: the falsy referrer
defaults to Direct and the location comes from get_geolocation. -/
def mkClick (e : UrlEntry) (now2 : Int) (referrer? : Option String)
    (ip : String) : ClickRow :=
  let geo := get_geolocation ip
  let ref := match referrer? with
    | some r => if r ≠ "" then r else "Direct"
    | none => "Direct"
  ⟨e.id, now2, ref, ip, geo.1, geo.2.1, geo.2.2⟩

/-- app.redirect_short_url.  now1 is the utcnow() reading of the expiry
comparison; now2 the one used for the click timestamp.  insertFails models
the INSERT INTO clicks raising sqlite3.Error: the except clause in app.py
references sqlite3, a name app.py never imports, so handling the error
raises NameError and the request ends in the generic 500 handler with no
redirect and no committed click, despite the comment in the source that
redirection should continue. -/
def redirect_short_url (db : DB) (code : String) (now1 now2 : Int)
    (referrer? : Option String) (ip : String) (insertFails : Bool) :
    DB × RedirectResult :=
  match db.urls.find? (fun e => e.short_code == code) with
  | none => (db, .notFound)
  | some e =>
    if e.expires_at < now1 then (db, .gone)
    else if insertFails then (db, .serverError)
    else ({ db with clicks := db.clicks ++ [mkClick e now2 referrer? ip] },
      .redirected e.original_url)

/-- The states reachable from the freshly initialised store by any
sequence of the three handlers. -/
inductive Reachable : DB → Prop where
  | init : Reachable initDB
  | create (db : DB) (url? : Option String) (validity? : Option Int)
      (shortcode? : Option String) (gen : Nat → String)
      (hgen : ∃ n, gen n ∉ db.urls.map UrlEntry.short_code)
      (t1 t2 : Int) (baseUrl : String) (insertFails : Bool) :
      Reachable db →
      Reachable (create_short_url db url? validity? shortcode? gen hgen t1 t2
        baseUrl insertFails).1
  | stats (db : DB) (code : String) :
      Reachable db → Reachable (get_short_url_stats db code).1
  | redirect (db : DB) (code : String) (now1 now2 : Int)
      (referrer? : Option String) (ip : String) (insertFails : Bool) :
      Reachable db →
      Reachable (redirect_short_url db code now1 now2 referrer? ip insertFails).1

/-- The store invariant: short codes identify their row, ids are below the
id counter, and every click points at some existing url row. -/
def DBInv (db : DB) : Prop :=
  (∀ e1 ∈ db.urls, ∀ e2 ∈ db.urls, e1.short_code = e2.short_code → e1 = e2) ∧
  (∀ e ∈ db.urls, e.id < db.nextUrlId) ∧
  (∀ c ∈ db.clicks, ∃ e ∈ db.urls, c.url_id = e.id)

/-! ### The code-generation retry loop of create_short_url, step 4 -/

/-- The while-True loop iterated explicitly: iteration k draws gen k and
stops at the first draw not among the stored codes; fuel bounds how many
iterations are observed, and no fuel sufficing models divergence. -/
def loopFirstFreeAux (gen : Nat → String) (codes : List String) :
    Nat → Nat → Option String
  | _, 0 => none
  | k, fuel + 1 =>
    if gen k ∈ codes then loopFirstFreeAux gen codes (k + 1) fuel
    else some (gen k)

/-- Termination of the retry loop from its start: some number of
iterations suffices to produce a code. -/
def LoopTerminates (gen : Nat → String) (codes : List String) : Prop :=
  ∃ fuel c, loopFirstFreeAux gen codes 0 fuel = some c

/-! ### Concrete states for instantiations -/

/-- A concrete generator. -/
def genQ : Nat → String := fun _ => "qqqq"

/-- The store after one concrete creation against the fresh store: entry
abcd for http://a.bc with default validity, both clocks at zero. -/
def db1C : DB :=
  (create_short_url initDB (some "http://a.bc") none (some "abcd") genQ
    ⟨0, by simp [initDB]⟩ 0 0 "b" false).1

/-- db1C after one successful redirect, which records one click. -/
def db2C : DB := (redirect_short_url db1C "abcd" 0 5 none "1.2.3.4" false).1

/-! ### Theorems -/

theorem splitDots_ne_nil (l : List Char) : splitDots l ≠ [] := by
  induction l with
  | nil => simp [splitDots]
  | cons c rest ih =>
    simp only [splitDots]
    split
    · simp
    · split
      · simp
      · simp

theorem reconstruct_splitDots (l : List Char) : reconstruct (splitDots l) = l := by
  induction l with
  | nil => rfl
  | cons c rest ih =>
    simp only [splitDots]
    split
    · rename_i hc
      subst hc
      rcases h : splitDots rest with _ | ⟨p, ps⟩
      · exact absurd h (splitDots_ne_nil rest)
      · rw [h] at ih
        simp [reconstruct, ← ih]
    · rename_i hc
      rcases h : splitDots rest with _ | ⟨p, ps⟩
      · exact absurd h (splitDots_ne_nil rest)
      · rw [h] at ih
        rcases ps with _ | ⟨q, qs⟩
        · simpa [reconstruct] using congrArg (c :: ·) ih
        · simp only [reconstruct] at ih ⊢
          simp [← ih]

theorem splitDots_no_dot (a : List Char) (h : '.' ∉ a) : splitDots a = [a] := by
  induction a with
  | nil => rfl
  | cons c rest ih =>
    have hc : c ≠ '.' := by
      intro hc; exact h (by simp [hc])
    have hrest : '.' ∉ rest := by
      intro hm; exact h (by simp [hm])
    simp only [splitDots, ih hrest]
    rw [if_neg (by simpa using hc)]

theorem splitDots_append_dot (a b : List Char) (h : '.' ∉ a) :
    splitDots (a ++ '.' :: b) = a :: splitDots b := by
  induction a with
  | nil => simp [splitDots]
  | cons c rest ih =>
    have hc : c ≠ '.' := by
      intro hc; exact h (by simp [hc])
    have hrest : '.' ∉ rest := by
      intro hm; exact h (by simp [hm])
    simp only [List.cons_append, splitDots, List.append_eq, ih hrest]
    rw [if_neg (by simpa using hc)]

theorem splitDots_joinLabels (ls : List (List Char)) (r : List Char)
    (h : ∀ l ∈ ls, '.' ∉ l) :
    splitDots (joinLabels ls ++ r) = ls ++ splitDots r := by
  induction ls with
  | nil => simp [joinLabels]
  | cons l ls ih =>
    have h1 : '.' ∉ l := h l (by simp)
    have h2 : ∀ x ∈ ls, '.' ∉ x := fun x hx => h x (by simp [hx])
    have : joinLabels (l :: ls) ++ r = l ++ '.' :: (joinLabels ls ++ r) := by
      simp [joinLabels, List.append_assoc]
    rw [this, splitDots_append_dot l _ h1, ih h2]
    simp

theorem reconstruct_append (ls rest : List (List Char)) (h : rest ≠ []) :
    reconstruct (ls ++ rest) = joinLabels ls ++ reconstruct rest := by
  induction ls with
  | nil => simp [joinLabels]
  | cons l ls ih =>
    have hne : ls ++ rest ≠ [] := by
      intro hx
      rcases List.append_eq_nil.mp hx with ⟨_, h2⟩
      exact h h2
    rcases hx : ls ++ rest with _ | ⟨q, qs⟩
    · exact absurd hx hne
    · have : reconstruct (l :: ls ++ rest) = l ++ '.' :: reconstruct (ls ++ rest) := by
        rw [List.cons_append, hx]
        simp [reconstruct]
      rw [this, ih, joinLabels]
      simp [joinLabels, List.append_assoc]

/-! ### Equivalence of the executable matcher and the grammar -/

theorem labelOk_no_dot {l : List Char} (h : labelOk l = true) : '.' ∉ l := by
  match l with
  | [] => simp [labelOk] at h
  | c :: rest =>
    simp only [labelOk, Bool.and_eq_true] at h
    obtain ⟨hc, hrest⟩ := h
    intro hm
    rcases List.mem_cons.mp hm with hm | hm
    · rw [← hm] at hc
      simp [isAlnumL] at hc
    · rcases rest.eq_nil_or_concat with hr | ⟨mid, d, hr⟩
      · subst hr; simp at hm
      · rw [List.concat_eq_append] at hr
        subst hr
        simp only [List.isEmpty_eq_true, List.getLast?_concat, List.dropLast_concat,
          Bool.or_eq_true, Bool.and_eq_true, List.all_eq_true] at hrest
        rcases hrest with hrest | ⟨⟨_, hall⟩, hd⟩
        · simp at hrest
        · rcases List.mem_append.mp hm with hm | hm
          · have := hall '.' hm
            simp [isAlnumHyphL, isAlnumL] at this
          · have hdd : ('.' : Char) = d := by simpa using hm
            rw [← hdd] at hd
            simp [isAlnumL] at hd

theorem tldCoreOk_no_dot {t : List Char} (h : tldCoreOk t = true) : '.' ∉ t := by
  simp only [tldCoreOk, Bool.or_eq_true, Bool.and_eq_true, List.all_eq_true] at h
  intro hm
  rcases h with ⟨⟨_, _⟩, hall⟩ | ⟨_, hall⟩
  · have := hall '.' hm
    simp [isAzL] at this
  · have := hall '.' hm
    simp [isAlnumHyphL, isAlnumL] at this

theorem tldCoreOk_ne_nil {t : List Char} (h : tldCoreOk t = true) : t ≠ [] := by
  simp only [tldCoreOk, Bool.or_eq_true, Bool.and_eq_true, decide_eq_true_eq] at h
  rcases h with ⟨⟨h2, _⟩, _⟩ | ⟨h2, _⟩ <;>
    exact fun hnil => by subst hnil; simp at h2

theorem octOk_no_dot {o : List Char} (h : octOk o = true) : '.' ∉ o := by
  simp only [octOk, Bool.and_eq_true, List.all_eq_true] at h
  intro hm
  have := h.2 '.' hm
  simp [Char.isDigit] at this

theorem domainOk_iff (s : List Char) : domainOk s = true ↔ LabelSeq s := by
  constructor
  · intro h
    simp only [domainOk] at h
    by_cases hstrip : (splitDots s).getLast? = some []
    · rw [if_pos hstrip] at h
      rcases (splitDots s).eq_nil_or_concat with hps | ⟨init, last, hps⟩
      · exact absurd hps (splitDots_ne_nil s)
      · rw [List.concat_eq_append] at hps
        rw [hps, List.getLast?_concat] at hstrip
        have hlast : last = [] := by simpa using hstrip
        subst hlast
        rw [hps, List.dropLast_concat] at h
        simp only [Bool.and_eq_true, decide_eq_true_eq] at h
        obtain ⟨⟨hlen, hlab⟩, htld⟩ := h
        rcases init.eq_nil_or_concat with hi | ⟨labels, core, hi⟩
        · subst hi; simp at hlen
        · rw [List.concat_eq_append] at hi
          subst hi
          rw [List.getLast?_concat] at htld
          have htld' : tldCoreOk core = true := htld
          rw [List.dropLast_concat] at hlab
          refine ⟨labels, core, ['.'], ?_, List.all_eq_true.mp hlab, htld', Or.inr rfl, ?_⟩
          · intro hx; subst hx; simp at hlen
          · have hrec := reconstruct_splitDots s
            rw [hps, List.append_assoc,
              reconstruct_append labels ([core] ++ [[]]) (by simp)] at hrec
            simp only [List.singleton_append, reconstruct] at hrec
            rw [← hrec]
            exact (List.append_assoc _ _ _).symm
    · rw [if_neg hstrip] at h
      simp only [Bool.and_eq_true, decide_eq_true_eq] at h
      obtain ⟨⟨hlen, hlab⟩, htld⟩ := h
      rcases (splitDots s).eq_nil_or_concat with hps | ⟨labels, core, hps⟩
      · exact absurd hps (splitDots_ne_nil s)
      · rw [List.concat_eq_append] at hps
        rw [hps, List.getLast?_concat] at htld
        have htld' : tldCoreOk core = true := htld
        rw [hps, List.dropLast_concat] at hlab
        rw [hps] at hlen
        refine ⟨labels, core, [], ?_, List.all_eq_true.mp hlab, htld', Or.inl rfl, ?_⟩
        · intro hx; subst hx; simp at hlen
        · have hrec := reconstruct_splitDots s
          rw [hps, reconstruct_append labels [core] (by simp)] at hrec
          simp only [reconstruct] at hrec
          rw [← hrec]
          simp
  · rintro ⟨labels, core, dot, hne, hlab, htld, hdot, rfl⟩
    have hnodot : ∀ l ∈ labels, '.' ∉ l := fun l hl => labelOk_no_dot (hlab l hl)
    have hcore : '.' ∉ core := tldCoreOk_no_dot htld
    have hcne : core ≠ [] := tldCoreOk_ne_nil htld
    have hlenpos : 0 < labels.length := List.length_pos.mpr hne
    rcases hdot with rfl | rfl
    · have hsplit : splitDots (joinLabels labels ++ core ++ []) = labels ++ [core] := by
        rw [List.append_nil, splitDots_joinLabels labels core hnodot,
          splitDots_no_dot core hcore]
      simp only [domainOk, hsplit]
      rw [if_neg (by rw [List.getLast?_concat]; simpa using hcne)]
      simp only [List.getLast?_concat, List.dropLast_concat, Bool.and_eq_true,
        decide_eq_true_eq, List.all_eq_true, List.length_append,
        List.length_singleton]
      exact ⟨⟨by omega, hlab⟩, htld⟩
    · have hsplit : splitDots (joinLabels labels ++ core ++ ['.']) =
          (labels ++ [core]) ++ [[]] := by
        rw [List.append_assoc, splitDots_joinLabels labels _ hnodot,
          splitDots_append_dot core [] hcore]
        simp [splitDots, List.append_assoc]
      simp only [domainOk, hsplit]
      rw [if_pos (by rw [List.getLast?_concat])]
      simp only [List.getLast?_concat, List.dropLast_concat, Bool.and_eq_true,
        decide_eq_true_eq, List.all_eq_true, List.length_append,
        List.length_singleton]
      exact ⟨⟨by omega, hlab⟩, htld⟩

theorem ipv4Ok_iff (s : List Char) : ipv4Ok s = true ↔ IPStr s := by
  constructor
  · intro h
    simp only [ipv4Ok, Bool.and_eq_true, beq_iff_eq, List.all_eq_true] at h
    obtain ⟨hlen, hall⟩ := h
    rcases hsp : splitDots s with _ | ⟨p1, l1⟩
    · exact absurd hsp (splitDots_ne_nil s)
    rcases l1 with _ | ⟨p2, l2⟩
    · rw [hsp] at hlen; simp at hlen
    rcases l2 with _ | ⟨p3, l3⟩
    · rw [hsp] at hlen; simp at hlen
    rcases l3 with _ | ⟨p4, l4⟩
    · rw [hsp] at hlen; simp at hlen
    rcases l4 with _ | ⟨p5, l5⟩
    case cons.cons.cons.cons.cons =>
      rw [hsp] at hlen; simp at hlen
    rw [hsp] at hall
    refine ⟨p1, p2, p3, p4, hall p1 (by simp), hall p2 (by simp),
      hall p3 (by simp), hall p4 (by simp), ?_⟩
    have hrec := reconstruct_splitDots s
    rw [hsp] at hrec
    simp only [reconstruct] at hrec
    exact hrec.symm
  · rintro ⟨o1, o2, o3, o4, h1, h2, h3, h4, rfl⟩
    have hsp : splitDots (o1 ++ '.' :: (o2 ++ '.' :: (o3 ++ '.' :: o4))) =
        [o1, o2, o3, o4] := by
      rw [splitDots_append_dot _ _ (octOk_no_dot h1),
        splitDots_append_dot _ _ (octOk_no_dot h2),
        splitDots_append_dot _ _ (octOk_no_dot h3),
        splitDots_no_dot _ (octOk_no_dot h4)]
    simp [ipv4Ok, hsp, h1, h2, h3, h4]

theorem hostOk_iff (s : List Char) : hostOk s = true ↔ HostStr s := by
  simp only [hostOk, HostStr, Bool.or_eq_true, domainOk_iff, ipv4Ok_iff, beq_iff_eq]
  exact or_assoc

theorem portOk_iff (p : List Char) : portOk p = true ↔ PortStr p := by
  match p with
  | [] => simp [portOk, PortStr]
  | c :: ds =>
    constructor
    · intro h
      simp only [portOk, Bool.and_eq_true, beq_iff_eq] at h
      obtain ⟨⟨hc, hne⟩, hall⟩ := h
      subst hc
      refine Or.inr ⟨ds, ?_, hall, rfl⟩
      intro hnil
      subst hnil
      simp at hne
    · rintro (h | ⟨ds', hne, hall, heq⟩)
      · simp at h
      · injection heq with h1 h2
        subst h1
        subst h2
        simp [portOk, hall, List.isEmpty_iff, hne]

theorem pathOk_iff (p : List Char) : pathOk p = true ↔ PathStr p := by
  match p with
  | [] => simp [pathOk, PathStr]
  | [c] =>
    show (c == '/') = true ↔ PathStr [c]
    simp only [beq_iff_eq, PathStr]
    constructor
    · intro hc
      subst hc
      exact Or.inr (Or.inl rfl)
    · rintro (h | h | ⟨c', rest, hc', hne, hall, heq⟩)
      · simp at h
      · injection h with h1 _
      · injection heq with h1 h2
        exact absurd h2.symm hne
  | c :: d :: rest =>
    show ((c == '/' || c == '?') && (d :: rest).all (fun x => !isSpaceC x)) = true ↔ _
    simp only [PathStr, Bool.and_eq_true, Bool.or_eq_true, beq_iff_eq]
    constructor
    · rintro ⟨hc, hall⟩
      exact Or.inr (Or.inr ⟨c, d :: rest, hc, by simp, hall, rfl⟩)
    · rintro (h | h | ⟨c', rest', hc', hne, hall, heq⟩)
      · simp at h
      · simp at h
      · injection heq with h1 h2
        subst h1
        rw [← h2] at hall
        exact ⟨hc', hall⟩

theorem range_any_iff (n : Nat) (f : Nat → Bool) :
    (List.range n).any f = true ↔ ∃ i, i < n ∧ f i = true := by
  rw [List.any_eq_true]
  constructor
  · rintro ⟨i, hi, hf⟩
    exact ⟨i, List.mem_range.mp hi, hf⟩
  · rintro ⟨i, hi, hf⟩
    exact ⟨i, List.mem_range.mpr hi, hf⟩

theorem restOk_iff (r : List Char) : restOk r = true ↔ RestStr r := by
  constructor
  · intro h
    rw [restOk, range_any_iff] at h
    obtain ⟨i, hi, h⟩ := h
    rw [Bool.and_eq_true] at h
    obtain ⟨hh, hj⟩ := h
    rw [range_any_iff] at hj
    obtain ⟨j, hj2, hpp⟩ := hj
    rw [Bool.and_eq_true] at hpp
    refine ⟨r.take i, (r.drop i).take j, (r.drop i).drop j,
      (hostOk_iff _).mp hh, (portOk_iff _).mp hpp.1, (pathOk_iff _).mp hpp.2, ?_⟩
    rw [List.append_assoc, List.take_append_drop, List.take_append_drop]
  · rintro ⟨h, p, q, hh, hp, hq, rfl⟩
    rw [restOk, range_any_iff]
    refine ⟨h.length, ?_, ?_⟩
    · simp only [List.length_append]
      omega
    · rw [Bool.and_eq_true]
      have hassoc : h ++ p ++ q = h ++ (p ++ q) := List.append_assoc h p q
      constructor
      · rw [hassoc, List.take_left]
        exact (hostOk_iff _).mpr hh
      · rw [hassoc, List.drop_left, range_any_iff]
        refine ⟨p.length, ?_, ?_⟩
        · simp only [List.length_append]
          omega
        · rw [Bool.and_eq_true]
          exact ⟨by rw [List.take_left]; exact (portOk_iff _).mpr hp,
            by rw [List.drop_left]; exact (pathOk_iff _).mpr hq⟩

theorem coreOk_iff (l : List Char) : coreOk l = true ↔ CoreUrl l := by
  constructor
  · intro h
    rw [coreOk, List.any_eq_true] at h
    obtain ⟨p, hp, hcond⟩ := h
    rw [Bool.and_eq_true] at hcond
    obtain ⟨hpre, hrest⟩ := hcond
    rw [schemePrefixes, List.mem_map] at hp
    obtain ⟨sch, hsch, rfl⟩ := hp
    obtain ⟨t, ht⟩ := List.isPrefixOf_iff_prefix.mp hpre
    rw [← ht, List.drop_left] at hrest
    obtain ⟨host, port, path, hh, hp2, hq2, rfl⟩ := (restOk_iff t).mp hrest
    refine ⟨sch, host, port, path, hsch, hh, hp2, hq2, ?_⟩
    rw [← ht]
    simp [List.append_assoc]
  · rintro ⟨sch, host, port, path, hsch, hh, hp2, hq2, rfl⟩
    rw [coreOk, List.any_eq_true]
    refine ⟨sch ++ [':', '/', '/'], ?_, ?_⟩
    · rw [schemePrefixes, List.mem_map]
      exact ⟨sch, hsch, rfl⟩
    · have hassoc : sch ++ [':', '/', '/'] ++ host ++ port ++ path =
          (sch ++ [':', '/', '/']) ++ (host ++ port ++ path) := by
        simp [List.append_assoc]
      rw [Bool.and_eq_true, hassoc]
      constructor
      · exact List.isPrefixOf_iff_prefix.mpr (List.prefix_append _ _)
      · rw [List.drop_left]
        exact (restOk_iff _).mpr ⟨host, port, path, hh, hp2, hq2, rfl⟩

/-- An eq-of-concat helper: a list ending in a given character is a
concatenation with that character. -/
theorem concat_last_eq {l l2 : List Char} {a b : Char} (h : l ++ [a] = l2 ++ [b]) :
    l = l2 ∧ a = b := by
  have h1 : (l ++ [a]).dropLast = (l2 ++ [b]).dropLast := by rw [h]
  have h2 : (l ++ [a]).getLast? = (l2 ++ [b]).getLast? := by rw [h]
  rw [List.dropLast_concat, List.dropLast_concat] at h1
  rw [List.getLast?_concat, List.getLast?_concat] at h2
  exact ⟨h1, by simpa using h2⟩

/-- Claim C8: is_valid_url is a pure function returning true iff the input
matches the absolute-URL grammar of the spec, case-insensitively — amended:
because the source anchors with a dollar under re.match, an otherwise
matching URL followed by one trailing newline is also accepted. -/
theorem c8_is_valid_url_grammar (s : String) :
    is_valid_url s = true ↔
      (UrlGrammar s ∨
        ∃ l, s.data.map Char.toLower = l ++ ['\n'] ∧ CoreUrl l) := by
  unfold is_valid_url UrlGrammar
  rw [Bool.or_eq_true, coreOk_iff]
  apply or_congr Iff.rfl
  rcases (s.data.map Char.toLower).eq_nil_or_concat with h | ⟨l', a, h⟩
  · rw [h]
    simp
  · rw [List.concat_eq_append] at h
    rw [h, List.getLast?_concat]
    simp only [Bool.and_eq_true, beq_iff_eq]
    constructor
    · rintro ⟨ha, hcore⟩
      subst ha
      rw [List.dropLast_concat] at hcore
      exact ⟨l', rfl, (coreOk_iff l').mp hcore⟩
    · rintro ⟨l2, heq, hcore⟩
      obtain ⟨rfl, rfl⟩ := concat_last_eq heq
      rw [List.dropLast_concat]
      exact ⟨rfl, (coreOk_iff l').mpr hcore⟩

/-- Claim C8, counterexample: the string consisting of a valid URL and one
trailing newline does not match the grammar of the spec, yet is_valid_url
accepts it, because the Python dollar anchor matches before a final
newline. -/
theorem c8_counterexample :
    is_valid_url "http://a.bc\n" = true ∧ ¬ UrlGrammar "http://a.bc\n" := by
  constructor
  · decide
  · intro h
    unfold UrlGrammar at h
    have h2 := (coreOk_iff ("http://a.bc\n".data.map Char.toLower)).mpr h
    rw [show coreOk ("http://a.bc\n".data.map Char.toLower) = false from by decide] at h2
    exact Bool.false_ne_true h2

/-! ### Store invariants -/

theorem codeTaken_false_fresh {db : DB} {c : String} (h : codeTaken db c = false) :
    ∀ e ∈ db.urls, e.short_code ≠ c := by
  intro e he heq
  rw [codeTaken] at h
  have : db.urls.any (fun e => e.short_code == c) = true :=
    List.any_eq_true.mpr ⟨e, he, by simp [heq]⟩
  rw [h] at this
  exact Bool.false_ne_true this

theorem notMem_map_fresh {db : DB} {c : String}
    (h : c ∉ db.urls.map UrlEntry.short_code) :
    ∀ e ∈ db.urls, e.short_code ≠ c := by
  intro e he heq
  exact h (List.mem_map.mpr ⟨e, he, heq⟩)

theorem inv_insert (db : DB) (url code : String) (t2 ex : Int) (b : String)
    (f : Bool) (hfresh : ∀ e ∈ db.urls, e.short_code ≠ code) (hinv : DBInv db) :
    DBInv (insertUrl db url code t2 ex b f).1 := by
  unfold insertUrl
  split
  · exact hinv
  · obtain ⟨h1, h2, h3⟩ := hinv
    refine ⟨?_, ?_, ?_⟩
    · intro e1 he1 e2 he2 hcode
      rcases List.mem_append.mp he1 with he1 | he1 <;>
        rcases List.mem_append.mp he2 with he2 | he2
      · exact h1 e1 he1 e2 he2 hcode
      · have he2' : e2 = ⟨db.nextUrlId, url, code, t2, ex⟩ := by simpa using he2
        subst he2'
        exact absurd hcode (hfresh e1 he1)
      · have he1' : e1 = ⟨db.nextUrlId, url, code, t2, ex⟩ := by simpa using he1
        subst he1'
        exact absurd hcode.symm (hfresh e2 he2)
      · have he1' : e1 = ⟨db.nextUrlId, url, code, t2, ex⟩ := by simpa using he1
        have he2' : e2 = ⟨db.nextUrlId, url, code, t2, ex⟩ := by simpa using he2
        rw [he1', he2']
    · intro e he
      rcases List.mem_append.mp he with he | he
      · exact Nat.lt_succ_of_lt (h2 e he)
      · have he' : e = ⟨db.nextUrlId, url, code, t2, ex⟩ := by simpa using he
        rw [he']
        exact Nat.lt_succ_self _
    · intro c hc
      obtain ⟨e, he, hid⟩ := h3 c hc
      exact ⟨e, List.mem_append.mpr (Or.inl he), hid⟩

theorem create_preserves_inv (db : DB) (url? : Option String)
    (validity? : Option Int) (shortcode? : Option String) (gen : Nat → String)
    (hgen : ∃ n, gen n ∉ db.urls.map UrlEntry.short_code)
    (t1 t2 : Int) (baseUrl : String) (insertFails : Bool) (hinv : DBInv db) :
    DBInv (create_short_url db url? validity? shortcode? gen hgen t1 t2
      baseUrl insertFails).1 := by
  unfold create_short_url
  split
  · exact hinv
  · split
    · exact hinv
    · split
      · split
        · split
          · exact hinv
          · split
            · exact hinv
            · rename_i hnottaken
              apply inv_insert _ _ _ _ _ _ _ _ hinv
              exact codeTaken_false_fresh (by simpa using hnottaken)
        · apply inv_insert _ _ _ _ _ _ _ _ hinv
          exact notMem_map_fresh (Nat.find_spec hgen)
      · apply inv_insert _ _ _ _ _ _ _ _ hinv
        exact notMem_map_fresh (Nat.find_spec hgen)

theorem stats_fst (db : DB) (code : String) :
    (get_short_url_stats db code).1 = db := by
  unfold get_short_url_stats
  split <;> rfl

theorem redirect_preserves_inv (db : DB) (code : String) (now1 now2 : Int)
    (ref : Option String) (ip : String) (f : Bool) (hinv : DBInv db) :
    DBInv (redirect_short_url db code now1 now2 ref ip f).1 := by
  unfold redirect_short_url
  split
  · exact hinv
  · rename_i e hfind
    split
    · exact hinv
    · split
      · exact hinv
      · obtain ⟨h1, h2, h3⟩ := hinv
        refine ⟨h1, h2, ?_⟩
        intro c hc
        rcases List.mem_append.mp hc with hc | hc
        · exact h3 c hc
        · have hce : c = mkClick e now2 ref ip := by simpa using hc
          subst hce
          exact ⟨e, List.mem_of_find?_eq_some hfind, rfl⟩

theorem reachable_inv {db : DB} (h : Reachable db) : DBInv db := by
  induction h with
  | init => exact ⟨by simp [initDB], by simp [initDB], by simp [initDB]⟩
  | create db url? validity? shortcode? gen hgen t1 t2 baseUrl insertFails _ ih =>
    exact create_preserves_inv db url? validity? shortcode? gen hgen t1 t2
      baseUrl insertFails ih
  | stats db code _ ih =>
    rw [stats_fst]
    exact ih
  | redirect db code now1 now2 referrer? ip insertFails _ ih =>
    exact redirect_preserves_inv db code now1 now2 referrer? ip insertFails ih

/-! ### Shapes of the creation outcomes -/

theorem is_valid_url_ne_empty {url : String} (h : is_valid_url url = true) :
    url ≠ "" := by
  intro hh
  rw [hh, show is_valid_url "" = false from by decide] at h
  exact Bool.false_ne_true h

theorem create_success_shape (db : DB) (url : String) (validity? : Option Int)
    (shortcode? : Option String) (gen : Nat → String)
    (hgen : ∃ n, gen n ∉ db.urls.map UrlEntry.short_code)
    (t1 t2 : Int) (b s : String) (x : Int)
    (hres : (create_short_url db (some url) validity? shortcode? gen hgen t1 t2
      b false).2 = .created s x) :
    ∃ code, (∀ e ∈ db.urls, e.short_code ≠ code) ∧
      create_short_url db (some url) validity? shortcode? gen hgen t1 t2 b false =
        (⟨db.urls ++ [⟨db.nextUrlId, url, code, t2,
            calculate_expiry t1 (effectiveValidity validity?)⟩],
          db.clicks, db.nextUrlId + 1⟩,
         .created (b ++ "/" ++ code)
           (calculate_expiry t1 (effectiveValidity validity?))) := by
  cases shortcode? with
  | none =>
    simp only [create_short_url] at hres ⊢
    by_cases h1 : (decide (url = "") || !is_valid_url url) = true
    · rw [if_pos h1] at hres
      simp at hres
    · rw [if_neg h1] at hres ⊢
      simp only [insertUrl, if_neg (by simp : ¬ (false : Bool) = true)] at hres ⊢
      exact ⟨gen (Nat.find hgen), notMem_map_fresh (Nat.find_spec hgen), rfl⟩
  | some c =>
    simp only [create_short_url] at hres ⊢
    by_cases h1 : (decide (url = "") || !is_valid_url url) = true
    · rw [if_pos h1] at hres
      simp at hres
    · rw [if_neg h1] at hres ⊢
      by_cases h2 : c ≠ ""
      · rw [if_pos h2] at hres ⊢
        by_cases h3 : (!codeFormatOk c) = true
        · rw [if_pos h3] at hres
          simp at hres
        · rw [if_neg h3] at hres ⊢
          by_cases h4 : codeTaken db c = true
          · rw [if_pos h4] at hres
            simp at hres
          · rw [if_neg h4] at hres ⊢
            simp only [insertUrl, if_neg (by simp : ¬ (false : Bool) = true)] at hres ⊢
            exact ⟨c,
              codeTaken_false_fresh (Bool.eq_false_iff.mpr (fun hh => h4 hh)),
              rfl⟩
      · rw [if_neg h2] at hres ⊢
        simp only [insertUrl, if_neg (by simp : ¬ (false : Bool) = true)] at hres ⊢
        exact ⟨gen (Nat.find hgen), notMem_map_fresh (Nat.find_spec hgen), rfl⟩

theorem create_custom_eq (db : DB) (url c : String) (v : Option Int)
    (gen : Nat → String) (hgen : ∃ n, gen n ∉ db.urls.map UrlEntry.short_code)
    (t1 t2 : Int) (b : String)
    (hurl : is_valid_url url = true) (hcfmt : codeFormatOk c = true)
    (hcne : c ≠ "") (hnottaken : codeTaken db c = false) :
    create_short_url db (some url) v (some c) gen hgen t1 t2 b false =
      (⟨db.urls ++ [⟨db.nextUrlId, url, c, t2,
          calculate_expiry t1 (effectiveValidity v)⟩],
        db.clicks, db.nextUrlId + 1⟩,
       .created (b ++ "/" ++ c) (calculate_expiry t1 (effectiveValidity v))) := by
  have hurlne : url ≠ "" := is_valid_url_ne_empty hurl
  simp only [create_short_url, insertUrl]
  rw [if_neg (by simp [hurl, hurlne]), if_pos hcne,
    if_neg (by simp [hcfmt]), if_neg (by simp [hnottaken]),
    if_neg (by simp : ¬ (false : Bool) = true)]

theorem create_custom_conflict_eq (db : DB) (url c : String) (v : Option Int)
    (gen : Nat → String) (hgen : ∃ n, gen n ∉ db.urls.map UrlEntry.short_code)
    (t1 t2 : Int) (b : String) (f : Bool)
    (hurl : is_valid_url url = true) (hcfmt : codeFormatOk c = true)
    (hcne : c ≠ "") (htaken : codeTaken db c = true) :
    create_short_url db (some url) v (some c) gen hgen t1 t2 b f =
      (db, .conflict) := by
  have hurlne : url ≠ "" := is_valid_url_ne_empty hurl
  simp only [create_short_url]
  rw [if_neg (by simp [hurl, hurlne]), if_pos hcne,
    if_neg (by simp [hcfmt]), if_pos htaken]

theorem find?_append_left_none {α : Type} (l1 l2 : List α) (p : α → Bool)
    (h : ∀ a ∈ l1, p a = false) : (l1 ++ l2).find? p = l2.find? p := by
  induction l1 with
  | nil => rfl
  | cons a l ih =>
    rw [List.cons_append,
      List.find?_cons_of_neg _ (by simp [h a (List.mem_cons_self a l)])]
    exact ih (fun x hx => h x (List.mem_cons_of_mem a hx))

theorem clicks_filter_fresh {db : DB} (hinv : DBInv db) :
    db.clicks.filter (fun c => c.url_id == db.nextUrlId) = [] := by
  rw [List.filter_eq_nil_iff]
  intro c hc
  obtain ⟨e, he, hid⟩ := hinv.2.2 c hc
  have hlt := hinv.2.1 e he
  simp only [beq_iff_eq, hid]
  omega

theorem loopAux_some_fresh (gen : Nat → String) (codes : List String) :
    ∀ fuel k c, loopFirstFreeAux gen codes k fuel = some c → c ∉ codes := by
  intro fuel
  induction fuel with
  | zero =>
    intro k c h
    simp [loopFirstFreeAux] at h
  | succ n ih =>
    intro k c h
    rw [loopFirstFreeAux] at h
    split at h
    · exact ih (k + 1) c h
    · rename_i hnotin
      injection h with h2
      rw [← h2]
      exact hnotin

theorem loopAux_finds (gen : Nat → String) (codes : List String) :
    ∀ fuel k, (∃ j, j < fuel ∧ gen (k + j) ∉ codes) →
      ∃ c, loopFirstFreeAux gen codes k fuel = some c := by
  intro fuel
  induction fuel with
  | zero =>
    rintro k ⟨j, hj, _⟩
    exact absurd hj (Nat.not_lt_zero j)
  | succ n ih =>
    rintro k ⟨j, hj, hfree⟩
    rw [loopFirstFreeAux]
    split
    · rename_i hin
      apply ih (k + 1)
      rcases j with _ | j'
      · rw [Nat.add_zero] at hfree
        exact absurd hin hfree
      · refine ⟨j', by omega, ?_⟩
        have harith : k + 1 + j' = k + (j' + 1) := by omega
        rw [harith]
        exact hfree
    · exact ⟨gen k, rfl⟩

theorem loopConstCollide (fuel k : Nat) :
    loopFirstFreeAux (fun _ => "abcd") ["abcd"] k fuel = none := by
  induction fuel generalizing k with
  | zero => rfl
  | succ n ih =>
    rw [loopFirstFreeAux, if_pos (by simp)]
    exact ih (k + 1)

/-! ### The claims -/

/-- Claim C1: at every reachable store state there is at most one urls row
per short code — rows with equal short_code are the same row — and this is
preserved by every operation, auto-generated codes included, since both
the custom-code path and the retry loop only insert codes absent from the
store. -/
theorem c1_shortcode_unique (db : DB) (h : Reachable db) :
    ∀ e1 ∈ db.urls, ∀ e2 ∈ db.urls, e1.short_code = e2.short_code → e1 = e2 :=
  (reachable_inv h).1

/-- Claim C1, witness: the uniqueness property applied in the store
reached by one concrete creation. -/
theorem c1_witness :
    (⟨1, "http://a.bc", "abcd", 0, 1800⟩ : UrlEntry) =
      ⟨1, "http://a.bc", "abcd", 0, 1800⟩ :=
  c1_shortcode_unique db1C
    (Reachable.create initDB (some "http://a.bc") none (some "abcd") genQ
      ⟨0, by simp [initDB]⟩ 0 0 "b" false Reachable.init)
    ⟨1, "http://a.bc", "abcd", 0, 1800⟩ (by decide)
    ⟨1, "http://a.bc", "abcd", 0, 1800⟩ (by decide) rfl

/-- Claim C10: stats does not modify the store at all, and redirect never
modifies the urls rows or the id counter and at most appends one row to
clicks. -/
theorem c10_frame (db : DB) (code : String) (now1 now2 : Int)
    (ref : Option String) (ip : String) (f : Bool) :
    (get_short_url_stats db code).1 = db ∧
    (redirect_short_url db code now1 now2 ref ip f).1.urls = db.urls ∧
    (redirect_short_url db code now1 now2 ref ip f).1.nextUrlId = db.nextUrlId ∧
    ((redirect_short_url db code now1 now2 ref ip f).1.clicks = db.clicks ∨
      ∃ c, (redirect_short_url db code now1 now2 ref ip f).1.clicks =
        db.clicks ++ [c]) := by
  refine ⟨stats_fst db code, ?_⟩
  unfold redirect_short_url
  split
  · exact ⟨rfl, rfl, Or.inl rfl⟩
  · split
    · exact ⟨rfl, rfl, Or.inl rfl⟩
    · split
      · exact ⟨rfl, rfl, Or.inl rfl⟩
      · exact ⟨rfl, rfl, Or.inr ⟨_, rfl⟩⟩

/-- Claim C3: a redirect on an existing entry whose expiry time is in the
past answers Gone and appends no click; on a non-expired entry it answers
with the entry's original URL and appends exactly one click row carrying
that entry's id. -/
theorem c3_redirect_expiry (db : DB) (code : String) (e : UrlEntry)
    (now1 now2 : Int) (ref : Option String) (ip : String)
    (hfind : db.urls.find? (fun x => x.short_code == code) = some e) :
    (e.expires_at < now1 →
      redirect_short_url db code now1 now2 ref ip false = (db, .gone)) ∧
    (¬ e.expires_at < now1 →
      (redirect_short_url db code now1 now2 ref ip false =
        ({ db with clicks := db.clicks ++ [mkClick e now2 ref ip] },
          .redirected e.original_url) ∧
      (mkClick e now2 ref ip).url_id = e.id)) := by
  constructor
  · intro hexp
    simp only [redirect_short_url, hfind]
    rw [if_pos hexp]
  · intro hexp
    simp only [redirect_short_url, hfind]
    rw [if_neg hexp, if_neg (by simp : ¬ (false : Bool) = true)]
    exact ⟨rfl, rfl⟩

/-- Claim C3, witness: the concrete entry expiring at 1800 is Gone at
time 9999. -/
theorem c3_witness :
    redirect_short_url db1C "abcd" 9999 9999 none "1.2.3.4" false =
      (db1C, .gone) :=
  (c3_redirect_expiry db1C "abcd" ⟨1, "http://a.bc", "abcd", 0, 1800⟩ 9999 9999
    none "1.2.3.4" (by decide)).1 (by decide)

/-- Claim C4 (code bug): on a found, non-expired entry, a storage error
while inserting the click is not absorbed.  app.py never imports sqlite3,
so evaluating the except clause raises NameError; the request ends in the
generic 500 handler with no redirect and no committed click, contrary to
the spec and to the comment in the source that redirection should
continue. -/
theorem c4_click_failure_breaks_redirect :
    redirect_short_url db1C "abcd" 0 0 none "1.2.3.4" true =
      (db1C, .serverError) := by decide

/-- Claim C7: stats on an existing entry whose clicks table holds N rows
for its id returns totalClicks N and clickDetails of length N, rendered
from those rows in row (insertion) order. -/
theorem c7_stats_order (db : DB) (code : String) (e : UrlEntry)
    (hfind : db.urls.find? (fun x => x.short_code == code) = some e) :
    ∃ v, (get_short_url_stats db code).2 = some v ∧
      v.totalClicks = (db.clicks.filter (fun c => c.url_id == e.id)).length ∧
      v.clickDetails.length =
        (db.clicks.filter (fun c => c.url_id == e.id)).length ∧
      v.clickDetails =
        (db.clicks.filter (fun c => c.url_id == e.id)).map renderClick := by
  simp only [get_short_url_stats, hfind]
  exact ⟨_, rfl, rfl, by simp, rfl⟩

/-- Claim C7, witness: in the concrete store with one recorded click,
stats returns one click, one detail row, in order. -/
theorem c7_witness :
    ∃ v, (get_short_url_stats db2C "abcd").2 = some v ∧
      v.totalClicks = (db2C.clicks.filter (fun c =>
        c.url_id == (⟨1, "http://a.bc", "abcd", 0, 1800⟩ : UrlEntry).id)).length ∧
      v.clickDetails.length = (db2C.clicks.filter (fun c =>
        c.url_id == (⟨1, "http://a.bc", "abcd", 0, 1800⟩ : UrlEntry).id)).length ∧
      v.clickDetails = (db2C.clicks.filter (fun c =>
        c.url_id == (⟨1, "http://a.bc", "abcd", 0, 1800⟩ : UrlEntry).id)).map
          renderClick :=
  c7_stats_order db2C "abcd" ⟨1, "http://a.bc", "abcd", 0, 1800⟩ (by decide)

/-- Claim C2, amended: on every successful creation the stored expiresAt
equals the clock sample taken while resolving the validity (step 2 of the
handler) plus the effective validity, where a missing or non-positive
validity defaults to 30 minutes; createdAt is a later, separate clock
sample (step 5), so expiresAt equals createdAt plus the validity exactly
when the two samples coincide. -/
theorem c2_expiry_amended (db : DB) (url : String) (validity? : Option Int)
    (shortcode? : Option String) (gen : Nat → String)
    (hgen : ∃ n, gen n ∉ db.urls.map UrlEntry.short_code)
    (t1 t2 : Int) (b s : String) (x : Int)
    (hres : (create_short_url db (some url) validity? shortcode? gen hgen t1 t2
      b false).2 = .created s x) :
    ∃ e : UrlEntry,
      (create_short_url db (some url) validity? shortcode? gen hgen t1 t2
        b false).1.urls = db.urls ++ [e] ∧
      e.expires_at = calculate_expiry t1 (effectiveValidity validity?) ∧
      e.created_at = t2 ∧
      (t1 = t2 →
        e.expires_at = e.created_at + 60 * effectiveValidity validity?) ∧
      (∀ v, validity? = some v → 0 < v → effectiveValidity validity? = v) ∧
      (validity? = none → effectiveValidity validity? = 30) ∧
      (∀ v, validity? = some v → v ≤ 0 → effectiveValidity validity? = 30) := by
  obtain ⟨code, hfresh, heq⟩ := create_success_shape db url validity? shortcode?
    gen hgen t1 t2 b s x hres
  refine ⟨⟨db.nextUrlId, url, code, t2,
    calculate_expiry t1 (effectiveValidity validity?)⟩,
    by rw [heq], rfl, rfl, ?_, ?_, ?_, ?_⟩
  · intro ht
    subst ht
    rfl
  · intro v hv hpos
    rw [hv]
    simp only [effectiveValidity]
    rw [if_pos hpos]
  · intro hv
    rw [hv]
    rfl
  · intro v hv hnonpos
    rw [hv]
    simp only [effectiveValidity]
    rw [if_neg (by omega)]

/-- Claim C2, counterexample: a successful creation whose two utcnow
samples differ by one second stores expiresAt 1800 but createdAt 1 for a
validity of 30 minutes, and 1800 is not 1 + 60 * 30: the stored expiresAt
is computed from the earlier sample, not from the stored createdAt. -/
theorem c2_counterexample :
    (create_short_url initDB (some "http://a.bc") (some 30) (some "abcd") genQ
      ⟨0, by simp [initDB]⟩ 0 1 "b" false).2 = .created "b/abcd" 1800 ∧
    (create_short_url initDB (some "http://a.bc") (some 30) (some "abcd") genQ
      ⟨0, by simp [initDB]⟩ 0 1 "b" false).1.urls =
      [⟨1, "http://a.bc", "abcd", 1, 1800⟩] ∧
    (1800 : Int) ≠ 1 + 60 * 30 :=
  ⟨by decide, by decide, by decide⟩

/-- Claim C2, witness: the amended statement applied at coinciding clock
samples, where the equality expiresAt = createdAt + validity holds. -/
theorem c2_witness :
    ∃ e : UrlEntry,
      (create_short_url initDB (some "http://a.bc") (some 5) (some "abcd") genQ
        ⟨0, by simp [initDB]⟩ 0 0 "b" false).1.urls = initDB.urls ++ [e] ∧
      e.expires_at = calculate_expiry 0 (effectiveValidity (some 5)) ∧
      e.created_at = 0 ∧
      ((0 : Int) = 0 →
        e.expires_at = e.created_at + 60 * effectiveValidity (some 5)) ∧
      (∀ v, (some 5 : Option Int) = some v → 0 < v →
        effectiveValidity (some 5) = v) ∧
      ((some 5 : Option Int) = none → effectiveValidity (some 5) = 30) ∧
      (∀ v, (some 5 : Option Int) = some v → v ≤ 0 →
        effectiveValidity (some 5) = 30) :=
  c2_expiry_amended initDB "http://a.bc" (some 5) (some "abcd") genQ
    ⟨0, by simp [initDB]⟩ 0 0 "b" "b/abcd" 300 (by decide)

/-- Claim C5: a well-formed custom code absent from the store is accepted
and stored as the entry's exact shortCode, and a second creation request
with the same custom code answers Conflict and leaves the store
unchanged. -/
theorem c5_custom_conflict (db : DB) (c url url2 : String)
    (v1 v2 : Option Int) (gen gen2 : Nat → String)
    (hgen : ∃ n, gen n ∉ db.urls.map UrlEntry.short_code)
    (t1 t2 t3 t4 : Int) (b b2 : String) (f2 : Bool)
    (hfmt : codeCoreOk c.data = true)
    (hfree : codeTaken db c = false)
    (hurl : is_valid_url url = true)
    (hurl2 : is_valid_url url2 = true)
    (hgen2 : ∃ n, gen2 n ∉
      (create_short_url db (some url) v1 (some c) gen hgen t1 t2
        b false).1.urls.map UrlEntry.short_code) :
    (create_short_url db (some url) v1 (some c) gen hgen t1 t2 b false).1.urls =
      db.urls ++ [⟨db.nextUrlId, url, c, t2,
        calculate_expiry t1 (effectiveValidity v1)⟩] ∧
    (create_short_url db (some url) v1 (some c) gen hgen t1 t2 b false).2 =
      .created (b ++ "/" ++ c) (calculate_expiry t1 (effectiveValidity v1)) ∧
    create_short_url
      (create_short_url db (some url) v1 (some c) gen hgen t1 t2 b false).1
      (some url2) v2 (some c) gen2 hgen2 t3 t4 b2 f2 =
      ((create_short_url db (some url) v1 (some c) gen hgen t1 t2 b false).1,
        .conflict) := by
  have hcne : c ≠ "" := by
    intro hh
    rw [hh, show codeCoreOk "".data = false from by decide] at hfmt
    exact Bool.false_ne_true hfmt
  have hcfmt : codeFormatOk c = true := by
    rw [codeFormatOk, hfmt]
    rfl
  have h1 := create_custom_eq db url c v1 gen hgen t1 t2 b hurl hcfmt hcne hfree
  refine ⟨by rw [h1], by rw [h1], ?_⟩
  apply create_custom_conflict_eq _ _ _ _ _ _ _ _ _ _ hurl2 hcfmt hcne
  rw [h1]
  simp only [codeTaken]
  apply List.any_eq_true.mpr
  exact ⟨⟨db.nextUrlId, url, c, t2, calculate_expiry t1 (effectiveValidity v1)⟩,
    List.mem_append.mpr (Or.inr (by simp)), by simp⟩

/-- Claim C5, witness: the code abcd is created against the empty store
and a second request with abcd answers Conflict. -/
theorem c5_witness :
    (create_short_url initDB (some "http://a.bc") none (some "abcd") genQ
      ⟨0, by simp [initDB]⟩ 0 0 "b" false).1.urls =
      initDB.urls ++ [⟨initDB.nextUrlId, "http://a.bc", "abcd", 0,
        calculate_expiry 0 (effectiveValidity none)⟩] ∧
    (create_short_url initDB (some "http://a.bc") none (some "abcd") genQ
      ⟨0, by simp [initDB]⟩ 0 0 "b" false).2 =
      .created ("b" ++ "/" ++ "abcd") (calculate_expiry 0 (effectiveValidity none)) ∧
    create_short_url
      (create_short_url initDB (some "http://a.bc") none (some "abcd") genQ
        ⟨0, by simp [initDB]⟩ 0 0 "b" false).1
      (some "http://b.cd") none (some "abcd") (fun _ => "zzzz")
      ⟨0, by decide⟩ 7 8 "b" false =
      ((create_short_url initDB (some "http://a.bc") none (some "abcd") genQ
        ⟨0, by simp [initDB]⟩ 0 0 "b" false).1, .conflict) :=
  c5_custom_conflict initDB "abcd" "http://a.bc" "http://b.cd" none none genQ
    (fun _ => "zzzz") ⟨0, by simp [initDB]⟩ 0 0 7 8 "b" "b" false
    (by decide) (by decide) (by decide) (by decide) ⟨0, by decide⟩

/-- Claim C6: creating a short URL from a valid URL in a reachable store
and immediately fetching stats for the created code returns the submitted
URL unchanged and zero clicks. -/
theorem c6_roundtrip (db : DB) (hdb : Reachable db) (url : String)
    (validity? : Option Int) (shortcode? : Option String) (gen : Nat → String)
    (hgen : ∃ n, gen n ∉ db.urls.map UrlEntry.short_code)
    (t1 t2 : Int) (b s : String) (x : Int)
    (hres : (create_short_url db (some url) validity? shortcode? gen hgen t1 t2
      b false).2 = .created s x) :
    ∃ e : UrlEntry,
      (create_short_url db (some url) validity? shortcode? gen hgen t1 t2
        b false).1.urls = db.urls ++ [e] ∧
      e.original_url = url ∧
      ∃ v, (get_short_url_stats
        (create_short_url db (some url) validity? shortcode? gen hgen t1 t2
          b false).1 e.short_code).2 = some v ∧
        v.originalUrl = url ∧ v.totalClicks = 0 := by
  obtain ⟨code, hfresh, heq⟩ := create_success_shape db url validity? shortcode?
    gen hgen t1 t2 b s x hres
  have hinv := reachable_inv hdb
  refine ⟨⟨db.nextUrlId, url, code, t2,
    calculate_expiry t1 (effectiveValidity validity?)⟩, by rw [heq], rfl, ?_⟩
  rw [heq]
  have hfind : (db.urls ++ [(⟨db.nextUrlId, url, code, t2,
      calculate_expiry t1 (effectiveValidity validity?)⟩ : UrlEntry)]).find?
      (fun x => x.short_code == code) = some ⟨db.nextUrlId, url, code, t2,
      calculate_expiry t1 (effectiveValidity validity?)⟩ := by
    rw [find?_append_left_none _ _ _ ?_]
    · exact List.find?_cons_of_pos _ (by simp)
    · intro a ha
      simp [hfresh a ha]
  simp only [get_short_url_stats, hfind]
  rw [clicks_filter_fresh hinv]
  exact ⟨_, rfl, rfl, rfl⟩

/-- Claim C6, witness: the round trip through a concrete creation against
the fresh store. -/
theorem c6_witness :
    ∃ e : UrlEntry,
      (create_short_url initDB (some "http://a.bc") none (some "abcd") genQ
        ⟨0, by simp [initDB]⟩ 0 0 "b" false).1.urls = initDB.urls ++ [e] ∧
      e.original_url = "http://a.bc" ∧
      ∃ v, (get_short_url_stats
        (create_short_url initDB (some "http://a.bc") none (some "abcd") genQ
          ⟨0, by simp [initDB]⟩ 0 0 "b" false).1 e.short_code).2 = some v ∧
        v.originalUrl = "http://a.bc" ∧ v.totalClicks = 0 :=
  c6_roundtrip initDB Reachable.init "http://a.bc" none (some "abcd") genQ
    ⟨0, by simp [initDB]⟩ 0 0 "b" "b/abcd" 1800 (by decide)

/-- Claim C9, amended: whenever the generator eventually emits a code that
is not in the store — in particular after any finite number of collisions
— the retry loop terminates and yields a code not present in the store;
the loop is not bounded unconditionally, since a generator that only ever
emits stored codes makes the while-True loop run forever. -/
theorem c9_loop_amended (gen : Nat → String) (codes : List String) (n : Nat)
    (h : gen n ∉ codes) :
    ∃ fuel c, loopFirstFreeAux gen codes 0 fuel = some c ∧ c ∉ codes := by
  obtain ⟨c, hc⟩ := loopAux_finds gen codes (n + 1) 0
    ⟨n, Nat.lt_succ_self n, by rw [Nat.zero_add]; exact h⟩
  exact ⟨n + 1, c, hc, loopAux_some_fresh gen codes (n + 1) 0 c hc⟩

/-- Claim C9, witness: a generator whose first draw is fresh terminates
immediately with a fresh code. -/
theorem c9_witness :
    ∃ fuel c, loopFirstFreeAux (fun _ => "qqqq") [] 0 fuel = some c ∧
      c ∉ ([] : List String) :=
  c9_loop_amended (fun _ => "qqqq") [] 0 (by simp)

/-- Claim C9, counterexample: with a store holding the code abcd and a
generator that always draws abcd, no number of iterations makes the
while-True loop stop; the loop does not terminate for every store state
and generator behaviour, i.e. it is not bounded. -/
theorem c9_counterexample : ¬ LoopTerminates (fun _ => "abcd") ["abcd"] := by
  rintro ⟨fuel, c, h⟩
  rw [loopConstCollide fuel 0] at h
  exact Option.noConfusion h
